import Mathlib

/-!
# smart_assert.h: a shallow embedding

The header `smart_assert.h` defines two scanning helpers
(`_get_nth_comma_position`, `_get_leading_spaces`), the printing helper
`_PRINT_SMART_ASSERT` and the multi-condition assertion `SMART_ASSERT`.

Modelling conventions.

* A C string is the list of its characters before the terminating NUL; the
  end of the list plays the role of the terminator.  A pointer into the
  string is the suffix it points at; `ptr_add` refuses offsets that leave
  the string (the terminator included), where C gives no defined content.
* C `int` values are mathematical integers (`Int`).  The index arithmetic of
  the header stays within `0 .. strlen` apart from `condition_string_size`,
  which may be negative, so no wrap-around is reachable for source texts
  shorter than `2^31` characters.
* The diagnostic stream `stderr` is the list of lines written so far, one
  entry per executed `_PRINT_SMART_ASSERT`.  An entry is `none` when the
  text argument of that print points outside the source string.
* Where the arguments of an assertion matter as expressions
  (`DEBUG_SMART_ASSERT`), an argument is a function on a program state `σ`
  that yields its truth value and the state it leaves.
-/

namespace SmartAssert

/-! ## Library primitives used by the header -/

/-- Pointer arithmetic `s + off` on a C string: the suffix that starts at
offset `off`, defined for `0 ≤ off ≤ strlen s` only. -/
def ptr_add (s : List Char) (off : Int) : Option (List Char) :=
  if 0 ≤ off ∧ off ≤ (s.length : Int) then some (s.drop off.toNat) else none

/-- Libc `strrchr(s, c)`: the suffix of `s` that starts at the last
occurrence of `c`, or `none` (the null pointer) when `c` does not occur. -/
def strrchr : List Char → Char → Option (List Char)
  | [], _ => none
  | x :: xs, c =>
    match strrchr xs c with
    | some p => some p
    | none => if x = c then some (x :: xs) else none

/-- Conversion `%d` of `printf`: the decimal rendering of an `int`. -/
def printf_d (n : Int) : List Char := (toString n).toList

/-- Conversion `%s` of `printf`: the C string the argument points at. -/
def printf_s (p : List Char) : List Char := p

/-- Conversion `%.*s` of `printf`: at most `precision` characters of the C
string the argument points at; a negative precision counts as omitted. -/
def printf_precision_s (precision : Int) (p : List Char) : List Char :=
  if precision < 0 then p else p.take precision.toNat

/-! ## The header -/

/-- Call-site context captured by `__FILE__`, `__LINE__` and `__func__`. -/
structure CallSite where
  file : List Char
  line : Int
  func : List Char
deriving DecidableEq, Repr

/-- `strrchr(__FILE__, '/') ? strrchr(__FILE__, '/') + 1 : __FILE__`. -/
def __FILENAME__ (file : List Char) : List Char :=
  match strrchr file '/' with
  | some p => p.drop 1
  | none => file

/-- The `for` loop of `_get_nth_comma_position`, run on the part of the
string from `string_index` on; returns `(string_index, found_commas)` as
they stand when the loop is left (by the terminator or by `break`). -/
def _get_nth_comma_position.loop (_target_comma_count : Int) :
    List Char → Int → Int → Int × Int
  | [], string_index, found_commas => (string_index, found_commas)
  | c :: rest, string_index, found_commas =>
    let found_commas := if c = ',' then found_commas + 1 else found_commas
    if found_commas = _target_comma_count then (string_index, found_commas)
    else _get_nth_comma_position.loop _target_comma_count rest (string_index + 1) found_commas

/-- `static inline int _get_nth_comma_position(const char *_string, int _target_comma_count)`. -/
def _get_nth_comma_position (_string : List Char) (_target_comma_count : Int) : Int :=
  let r := _get_nth_comma_position.loop _target_comma_count _string 0 0
  if r.2 = _target_comma_count then r.1 else 0

/-- The `while` loop of `_get_leading_spaces`, run on the part of the string
from `offset` on. -/
def _get_leading_spaces.loop : List Char → Int → Int
  | [], offset => offset
  | c :: rest, offset =>
    if c = ' ' then _get_leading_spaces.loop rest (offset + 1) else offset

/-- `static inline int _get_leading_spaces(const char *_string)`. -/
def _get_leading_spaces (_string : List Char) : Int :=
  _get_leading_spaces.loop _string 0

/-- A line of the diagnostic stream: its characters, or `none` when the
text argument of the print pointed outside the source string. -/
abbrev Line := Option (List Char)

/-- `_PRINT_SMART_ASSERT(_format, ...)`: the three `fprintf` calls, given the
already formatted middle part. -/
def _PRINT_SMART_ASSERT (site : CallSite) (formatted : List Char) : List Char :=
  (printf_s (__FILENAME__ site.file) ++ ":".toList ++ printf_d site.line ++ ": ".toList
      ++ printf_s site.func ++ ": SMART_ASSERT(): ".toList)
    ++ formatted ++ "\n".toList

/-- The text that an iteration of `SMART_ASSERT` for a failing
`assertion_index` prints between the backticks: the rendered `%s` or `%.*s`
argument of the branch taken. -/
def SMART_ASSERT.text (assertion_text : List Char) (assertion_count assertion_index : Int) :
    Option (List Char) :=
  if assertion_count = 1 then
    some (printf_s assertion_text)
  else if assertion_index = 0 then
    let suffix_comma_position := _get_nth_comma_position assertion_text 1
    some (printf_precision_s suffix_comma_position assertion_text)
  else if assertion_index = assertion_count - 1 then
    let prefix_comma_position := _get_nth_comma_position assertion_text assertion_index
    match ptr_add assertion_text (prefix_comma_position + 1) with
    | none => none
    | some p =>
      let leading_spaces := _get_leading_spaces p
      match ptr_add assertion_text (prefix_comma_position + 1 + leading_spaces) with
      | none => none
      | some assertion_address => some (printf_s assertion_address)
  else
    let prefix_comma_position := _get_nth_comma_position assertion_text assertion_index
    let suffix_comma_position := _get_nth_comma_position assertion_text (assertion_index + 1)
    match ptr_add assertion_text (prefix_comma_position + 1) with
    | none => none
    | some p =>
      let leading_spaces := _get_leading_spaces p
      let condition_string_size :=
        suffix_comma_position - prefix_comma_position - 1 - leading_spaces
      match ptr_add assertion_text (prefix_comma_position + 1 + leading_spaces) with
      | none => none
      | some assertion_address =>
        some (printf_precision_s condition_string_size assertion_address)

/-- The format string of the branch taken, filled in with the number
`assertion_index + 1` and the text between the backticks. -/
def SMART_ASSERT.formatted (assertion_count assertion_index : Int) (text : List Char) :
    List Char :=
  if assertion_count = 1 then
    "Condition `".toList ++ text ++ "` failed.".toList
  else if assertion_index = 0 then
    "Condition #".toList ++ printf_d (assertion_index + 1) ++ ": `".toList ++ text
      ++ "` failed.".toList
  else
    "Condition ".toList ++ printf_d (assertion_index + 1) ++ ": `".toList ++ text
      ++ "` failed.".toList

/-- The line written by the iteration of `SMART_ASSERT` for a failing
`assertion_index`. -/
def SMART_ASSERT.print (site : CallSite) (assertion_text : List Char)
    (assertion_count assertion_index : Int) : Line :=
  (SMART_ASSERT.text assertion_text assertion_count assertion_index).map
    (fun text => _PRINT_SMART_ASSERT site
      (SMART_ASSERT.formatted assertion_count assertion_index text))

/-- Variables of the `for` loop of `SMART_ASSERT`, with the diagnostic
stream. -/
structure LoopState where
  assertion_index : Nat
  assert_failure : Bool
  stderr : List Line
deriving DecidableEq, Repr

/-- One pass through the body of the `for` loop of `SMART_ASSERT`, followed
by `assertion_index++`. -/
def SMART_ASSERT.body (site : CallSite) (assertion_text : List Char) (assertions : List Bool)
    (st : LoopState) (h : st.assertion_index < assertions.length) : LoopState :=
  if assertions[st.assertion_index] = true then
    { st with assertion_index := st.assertion_index + 1 }
  else
    { assertion_index := st.assertion_index + 1
      assert_failure := true
      stderr := st.stderr ++
        [SMART_ASSERT.print site assertion_text assertions.length st.assertion_index] }

/-- The `for` loop of `SMART_ASSERT`; `fuel` bounds the number of passes. -/
def SMART_ASSERT.loop (site : CallSite) (assertion_text : List Char) (assertions : List Bool) :
    Nat → LoopState → LoopState
  | 0, st => st
  | fuel + 1, st =>
    if h : st.assertion_index < assertions.length then
      SMART_ASSERT.loop site assertion_text assertions fuel
        (SMART_ASSERT.body site assertion_text assertions st h)
    else st

/-- State of the process as an observer sees it: what was written to the
diagnostic stream, and whether `abort()` was called. -/
structure Process where
  stderr : List Line
  aborted : Bool
deriving DecidableEq, Repr

/-- A process that has written nothing and is running. -/
def Process.start : Process := { stderr := [], aborted := false }

/-- The loop state in which `SMART_ASSERT` leaves its `for` loop, when
entered with the diagnostic stream `stderr`. -/
def SMART_ASSERT.final (site : CallSite) (assertion_text : List Char) (assertions : List Bool)
    (stderr : List Line) : LoopState :=
  SMART_ASSERT.loop site assertion_text assertions assertions.length
    { assertion_index := 0, assert_failure := false, stderr := stderr }

/-- `SMART_ASSERT(...)` with `assertion_text = #__VA_ARGS__` and
`assertions[] = {__VA_ARGS__}`, as a step of the process.  A process that
has aborted executes nothing further. -/
def SMART_ASSERT (site : CallSite) (assertion_text : List Char) (assertions : List Bool)
    (p : Process) : Process :=
  if p.aborted then p
  else
    let st := SMART_ASSERT.final site assertion_text assertions p.stderr
    { stderr := st.stderr, aborted := st.assert_failure }


/-! ## Notions used to state the properties -/

/-- Indices of the false conditions, in ascending order. -/
def failing_indices (assertions : List Bool) : List Nat :=
  (List.range assertions.length).filter (fun i => assertions[i]? = some false)

/-- A call site used by the concrete examples. -/
def demo_site : CallSite := { file := "src/main.c".toList, line := 42, func := "main".toList }

/-- The label of the documented output format: the backticked text alone
for a single condition, `#1:` before it for the first of several, and the
1-based number with a colon before it for every later one. -/
def documented_label (N i : Nat) (text : List Char) : List Char :=
  if N = 1 then "`".toList ++ text ++ "`".toList
  else if i = 0 then "#1: `".toList ++ text ++ "`".toList
  else (toString (i + 1)).toList ++ ": `".toList ++ text ++ "`".toList

/-- The documented output format
`<basename>:<line>: <function>: SMART_ASSERT(): Condition <label> failed.`
followed by a newline. -/
def documented_line (site : CallSite) (label : List Char) : List Char :=
  __FILENAME__ site.file ++ ":".toList ++ (toString site.line).toList ++ ": ".toList
    ++ site.func ++ ": SMART_ASSERT(): Condition ".toList ++ label ++ " failed.\n".toList

/-! ## Argument expressions and `DEBUG_SMART_ASSERT` -/

/-- The initializer `{__VA_ARGS__}` of `assertions[]`: every argument
expression is evaluated once, from left to right, on the program state `σ`;
an expression yields its truth value and the state it leaves.  (C++ fixes
this order for a braced list; C leaves it open and GNU compatible compilers
go left to right.) -/
def initializer_list {σ : Type} : List (σ → Bool × σ) → σ → List Bool × σ
  | [], s => ([], s)
  | e :: es, s =>
    let r := e s
    let rs := initializer_list es r.2
    (r.1 :: rs.1, rs.2)

/-- The statement `SMART_ASSERT(...)` on unevaluated argument expressions:
`assertions[]` is initialised from them, then the loop and `abort()` run on
the values. -/
def SMART_ASSERT.statement {σ : Type} (site : CallSite) (assertion_text : List Char)
    (args : List (σ → Bool × σ)) (st : σ × Process) : σ × Process :=
  if st.2.aborted then st
  else
    let r := initializer_list args st.1
    (r.2, SMART_ASSERT site assertion_text r.1 st.2)

/-- The expression `(__VA_ARGS__)` read as a comma expression: the operands
are evaluated from left to right and their values are dropped. -/
def comma_expression {σ : Type} : List (σ → Bool × σ) → σ → σ
  | [], s => s
  | e :: es, s => comma_expression es (e s).2

/-- `DEBUG_SMART_ASSERT(...)`: `SMART_ASSERT(__VA_ARGS__)` when `DEBUG_MODE`
is defined, `((void)(__VA_ARGS__))` otherwise. -/
def DEBUG_SMART_ASSERT {σ : Type} (DEBUG_MODE : Bool) (site : CallSite)
    (assertion_text : List Char) (args : List (σ → Bool × σ)) (st : σ × Process) :
    σ × Process :=
  if DEBUG_MODE then SMART_ASSERT.statement site assertion_text args st
  else if st.2.aborted then st
  else (comma_expression args st.1, st.2)

/-- An argument expression that counts its evaluations in the program state
and yields `b`. -/
def counting (b : Bool) : Nat → Bool × Nat := fun n => (b, n + 1)

/-- Reference for the condition text: the `i`-th piece of `S` split at its
commas, without its leading spaces unless `i = 0`. -/
def reference_text (S : List Char) (i : Nat) : List Char :=
  let piece := (S.splitOn ',').getD i []
  if i = 0 then piece else piece.dropWhile (fun c => decide (c = ' '))

/-! ## The loop of `SMART_ASSERT` (C1, C2) -/

theorem SMART_ASSERT.body_index (site : CallSite) (S : List Char) (assertions : List Bool)
    (st : LoopState) (h : st.assertion_index < assertions.length) :
    (SMART_ASSERT.body site S assertions st h).assertion_index = st.assertion_index + 1 := by
  unfold SMART_ASSERT.body
  split <;> rfl

theorem SMART_ASSERT.loop_spec (site : CallSite) (S : List Char) (assertions : List Bool) :
    ∀ (fuel : Nat) (st : LoopState), st.assertion_index + fuel = assertions.length →
      SMART_ASSERT.loop site S assertions fuel st =
        { assertion_index := assertions.length
          assert_failure := st.assert_failure ||
            !((List.range' st.assertion_index fuel).filter
                (fun i => decide (assertions[i]? = some false))).isEmpty
          stderr := st.stderr ++
            ((List.range' st.assertion_index fuel).filter
                (fun i => decide (assertions[i]? = some false))).map
              (fun (i : Nat) => SMART_ASSERT.print site S assertions.length i) } := by
  intro fuel
  induction fuel with
  | zero =>
    intro st h
    cases st
    simp only [Nat.add_zero] at h
    simp [SMART_ASSERT.loop, h]
  | succ n ih =>
    intro st h
    have hi : st.assertion_index < assertions.length := by omega
    rw [SMART_ASSERT.loop, dif_pos hi, ih _ (by rw [SMART_ASSERT.body_index]; omega)]
    have hget : assertions[st.assertion_index]? = some assertions[st.assertion_index] :=
      List.getElem?_eq_getElem hi
    unfold SMART_ASSERT.body
    by_cases hb : assertions[st.assertion_index] = true
    · simp [hb, hget, List.range'_succ]
    · have hb' : assertions[st.assertion_index] = false := by simpa using hb
      simp [hb', hget, List.range'_succ]

theorem failing_indices_length (assertions : List Bool) :
    (failing_indices assertions).length = assertions.count false := by
  unfold failing_indices
  induction assertions using List.reverseRecOn with
  | nil => simp
  | append_singleton l b ih =>
    have hcongr : (List.range l.length).filter (fun i => decide ((l ++ [b])[i]? = some false))
        = (List.range l.length).filter (fun i => decide (l[i]? = some false)) := by
      apply List.filter_congr
      intro i hi
      rw [List.mem_range] at hi
      rw [List.getElem?_append_left hi]
    rw [List.length_append, List.length_singleton, List.range_succ, List.filter_append, hcongr,
      List.length_append, ih, List.count_append]
    cases b <;> simp

theorem mem_failing_indices (assertions : List Bool) (i : Nat) :
    i ∈ failing_indices assertions ↔ assertions[i]? = some false := by
  unfold failing_indices
  rw [List.mem_filter, List.mem_range, decide_eq_true_eq]
  constructor
  · exact fun h => h.2
  · intro h
    exact ⟨(List.getElem?_eq_some.mp h).1, h⟩

theorem failing_indices_pairwise (assertions : List Bool) :
    (failing_indices assertions).Pairwise (· < ·) :=
  List.Pairwise.filter _ (List.pairwise_lt_range _)

theorem SMART_ASSERT.final_eq (site : CallSite) (S : List Char) (assertions : List Bool)
    (stderr : List Line) :
    SMART_ASSERT.final site S assertions stderr =
      { assertion_index := assertions.length
        assert_failure := !(failing_indices assertions).isEmpty
        stderr := stderr ++ (failing_indices assertions).map
          (fun (i : Nat) => SMART_ASSERT.print site S assertions.length i) } := by
  unfold SMART_ASSERT.final failing_indices
  rw [SMART_ASSERT.loop_spec site S assertions assertions.length _ (by simp)]
  simp [List.range_eq_range']

/-- C1: when some condition is false, one `SMART_ASSERT` invocation of a
running process leaves its loop only at `assertion_index = N`, then aborts,
having appended to the diagnostic stream exactly the lines of the false
conditions, one per false condition, in ascending index order. -/
theorem SMART_ASSERT_reports_every_failure (site : CallSite) (S : List Char)
    (assertions : List Bool) (p : Process)
    (_hN : 1 ≤ assertions.length) (hfail : false ∈ assertions) (hp : p.aborted = false) :
    (SMART_ASSERT.final site S assertions p.stderr).assertion_index = assertions.length ∧
    (SMART_ASSERT site S assertions p).aborted = true ∧
    (SMART_ASSERT site S assertions p).stderr =
      p.stderr ++ (failing_indices assertions).map
        (fun (i : Nat) => SMART_ASSERT.print site S assertions.length i) ∧
    (failing_indices assertions).length = assertions.count false ∧
    (failing_indices assertions).Pairwise (· < ·) ∧
    (∀ i, i ∈ failing_indices assertions ↔ assertions[i]? = some false) := by
  have hne : (failing_indices assertions).isEmpty = false := by
    obtain ⟨i, hi⟩ := List.mem_iff_getElem?.mp hfail
    have hmem := (mem_failing_indices assertions i).mpr hi
    cases hfi : failing_indices assertions with
    | nil => rw [hfi] at hmem; cases hmem
    | cons a l => rfl
  refine ⟨?_, ?_, ?_, failing_indices_length assertions, failing_indices_pairwise assertions,
    mem_failing_indices assertions⟩
  · rw [SMART_ASSERT.final_eq]
  · simp [SMART_ASSERT, hp, SMART_ASSERT.final_eq, hne]
  · simp [SMART_ASSERT, hp, SMART_ASSERT.final_eq]

/-- Witness of C1 on `SMART_ASSERT(a == 1, b == 2)` with values (true, false). -/
theorem SMART_ASSERT_reports_every_failure_witness :
    (SMART_ASSERT demo_site "a == 1, b == 2".toList [true, false] Process.start).aborted = true :=
  (SMART_ASSERT_reports_every_failure demo_site "a == 1, b == 2".toList [true, false]
    Process.start (by decide) (by decide) rfl).2.1

theorem failing_indices_all_true (assertions : List Bool) (hall : ∀ b ∈ assertions, b = true) :
    failing_indices assertions = [] := by
  rw [List.eq_nil_iff_forall_not_mem]
  intro i hi
  rw [mem_failing_indices] at hi
  have := hall false (List.mem_iff_getElem?.mpr ⟨i, hi⟩)
  cases this

/-- C2: when every condition is true, a `SMART_ASSERT` invocation visits all
`N` indices and leaves the process as it was (nothing written, no abort),
and so does any number of repeated invocations. -/
theorem SMART_ASSERT_all_true_silent (site : CallSite) (S : List Char)
    (assertions : List Bool) (_hN : 1 ≤ assertions.length)
    (hall : ∀ b ∈ assertions, b = true) :
    (SMART_ASSERT.final site S assertions []).assertion_index = assertions.length ∧
    SMART_ASSERT site S assertions Process.start = { stderr := [], aborted := false } ∧
    (∀ p : Process, SMART_ASSERT site S assertions p = p) ∧
    (∀ (n : Nat) (p : Process), (SMART_ASSERT site S assertions)^[n] p = p) := by
  have hstep : ∀ p : Process, SMART_ASSERT site S assertions p = p := by
    intro p
    cases p with
    | mk err ab =>
      cases ab <;>
        simp [SMART_ASSERT, SMART_ASSERT.final_eq, failing_indices_all_true assertions hall]
  refine ⟨by rw [SMART_ASSERT.final_eq], hstep Process.start, hstep, ?_⟩
  intro n p
  exact Function.iterate_fixed (hstep p) n

/-- Witness of C2 on `SMART_ASSERT(a == 1, b == 2)` with both values true,
invoked five times. -/
theorem SMART_ASSERT_all_true_silent_witness :
    (SMART_ASSERT demo_site "a == 1, b == 2".toList [true, true])^[5] Process.start
      = Process.start :=
  (SMART_ASSERT_all_true_silent demo_site "a == 1, b == 2".toList [true, true]
    (by decide) (by decide)).2.2.2 5 Process.start


/-! ## The scanning helpers -/

theorem _get_nth_comma_position.loop_split (k : Int) (post : List Char) :
    ∀ (pre : List Char) (idx found : Int), found + (pre.count ',' : Int) + 1 = k →
      _get_nth_comma_position.loop k (pre ++ ',' :: post) idx found
        = (idx + (pre.length : Int), k) := by
  intro pre
  induction pre with
  | nil =>
    intro idx found h
    simp at h
    simp [_get_nth_comma_position.loop, h]
  | cons c pre ih =>
    intro idx found h
    by_cases hc : c = ','
    · subst hc
      simp only [List.count_cons_self, Nat.cast_add, Nat.cast_one] at h
      have hne : ¬ found + 1 = k := by omega
      rw [List.cons_append, _get_nth_comma_position.loop]
      simp only [if_true, hne, if_false]
      rw [ih (idx + 1) (found + 1) (by omega)]
      simp only [List.length_cons, Nat.cast_add, Nat.cast_one]
      congr 1
      omega
    · rw [List.count_cons_of_ne (Ne.symm hc)] at h
      have hne : ¬ found = k := by omega
      rw [List.cons_append, _get_nth_comma_position.loop]
      simp only [hc, if_false, hne]
      rw [ih (idx + 1) found h]
      simp only [List.length_cons, Nat.cast_add, Nat.cast_one]
      congr 1
      omega

theorem _get_nth_comma_position_split (pre post : List Char) (k : Int)
    (h : (pre.count ',' : Int) + 1 = k) :
    _get_nth_comma_position (pre ++ ',' :: post) k = (pre.length : Int) := by
  unfold _get_nth_comma_position
  rw [_get_nth_comma_position.loop_split k post pre 0 0 (by omega)]
  simp

theorem exists_split_at_comma : ∀ (S : List Char) (k : Nat), 1 ≤ k → k ≤ S.count ',' →
    ∃ pre post, S = pre ++ ',' :: post ∧ pre.count ',' + 1 = k := by
  intro S
  induction S with
  | nil => intro k h1 h2; simp at h2; omega
  | cons c S ih =>
    intro k h1 h2
    by_cases hc : c = ','
    · subst hc
      rw [List.count_cons_self] at h2
      by_cases hk : k = 1
      · exact ⟨[], S, rfl, by simp [hk]⟩
      · obtain ⟨pre, post, hS, hcount⟩ := ih (k - 1) (by omega) (by omega)
        refine ⟨',' :: pre, post, by rw [hS]; rfl, ?_⟩
        rw [List.count_cons_self]
        omega
    · rw [List.count_cons_of_ne (Ne.symm hc)] at h2
      obtain ⟨pre, post, hS, hcount⟩ := ih k h1 h2
      refine ⟨c :: pre, post, by rw [hS]; rfl, ?_⟩
      rw [List.count_cons_of_ne (Ne.symm hc)]
      exact hcount

theorem _get_leading_spaces.loop_eq : ∀ (s : List Char) (offset : Int),
    _get_leading_spaces.loop s offset
      = offset + ((s.takeWhile (fun c => decide (c = ' '))).length : Int) := by
  intro s
  induction s with
  | nil => intro offset; simp [_get_leading_spaces.loop]
  | cons c s ih =>
    intro offset
    by_cases hc : c = ' '
    · simp only [_get_leading_spaces.loop, hc, if_true, ih, decide_True, List.takeWhile_cons_of_pos,
        List.length_cons, Nat.cast_add, Nat.cast_one]
      omega
    · simp [_get_leading_spaces.loop, hc]

theorem _get_leading_spaces_eq (s : List Char) :
    _get_leading_spaces s = ((s.takeWhile (fun c => decide (c = ' '))).length : Int) := by
  unfold _get_leading_spaces
  rw [_get_leading_spaces.loop_eq]
  simp

theorem drop_length_takeWhile (p : Char → Bool) : ∀ s : List Char,
    s.drop (s.takeWhile p).length = s.dropWhile p := by
  intro s
  induction s with
  | nil => rfl
  | cons c s ih =>
    by_cases hc : p c = true
    · simp [hc, ih]
    · simp [hc]

theorem ptr_add_natCast (S : List Char) (n : Nat) (h : n ≤ S.length) :
    ptr_add S (n : Int) = some (S.drop n) := by
  unfold ptr_add
  rw [if_pos ⟨by omega, by omega⟩]
  simp

/-- After the comma of a split `pre ++ ',' :: post`, the pointer skipped past
the leading spaces is `post` without its leading spaces. -/
theorem ptr_add_after_comma (pre post : List Char) :
    ptr_add (pre ++ ',' :: post) ((pre.length : Int) + 1) = some post ∧
    ptr_add (pre ++ ',' :: post) ((pre.length : Int) + 1 + _get_leading_spaces post)
      = some (post.dropWhile (fun c => decide (c = ' '))) := by
  have hle := (List.takeWhile_prefix (fun c => decide (c = ' ')) (l := post)).length_le
  constructor
  · have := ptr_add_natCast (pre ++ ',' :: post) (pre.length + 1) (by simp)
    simpa using this
  · rw [_get_leading_spaces_eq]
    have := ptr_add_natCast (pre ++ ',' :: post)
      (pre.length + 1 + (post.takeWhile (fun c => decide (c = ' '))).length)
      (by simp; omega)
    rw [← drop_length_takeWhile]
    simp only [Nat.cast_add, Nat.cast_one] at this
    rw [this]
    congr 1
    have hdrop : List.drop (pre.length + 1) (pre ++ ',' :: post) = post := by simp
    rw [← List.drop_drop, hdrop]


theorem takeWhile_append_stop (p : Char → Bool) (c : Char) (post : List Char) (hc : p c = false) :
    ∀ mid : List Char, (mid ++ c :: post).takeWhile p = mid.takeWhile p := by
  intro mid
  induction mid with
  | nil => simp [hc]
  | cons a mid ih =>
    by_cases ha : p a = true
    · simp [ha, ih]
    · simp [ha]

theorem dropWhile_append_stop (p : Char → Bool) (c : Char) (post : List Char) (hc : p c = false) :
    ∀ mid : List Char, (mid ++ c :: post).dropWhile p = mid.dropWhile p ++ c :: post := by
  intro mid
  induction mid with
  | nil => simp [hc]
  | cons a mid ih =>
    by_cases ha : p a = true
    · simp [ha, ih]
    · simp [ha]

theorem length_takeWhile_add_dropWhile (p : Char → Bool) (s : List Char) :
    (s.takeWhile p).length + (s.dropWhile p).length = s.length := by
  rw [← List.length_append, List.takeWhile_append_dropWhile]

/-! ## The text printed by each branch of `SMART_ASSERT` -/

theorem SMART_ASSERT.text_only (S : List Char) (i : Int) :
    SMART_ASSERT.text S 1 i = some S := by
  simp [SMART_ASSERT.text, printf_s]

theorem SMART_ASSERT.text_first (pre post : List Char) (N : Int) (hN : N ≠ 1)
    (hpre : pre.count ',' = 0) :
    SMART_ASSERT.text (pre ++ ',' :: post) N 0 = some pre := by
  have hpos := _get_nth_comma_position_split pre post 1 (by simp [hpre])
  simp [SMART_ASSERT.text, hN, hpos, printf_precision_s]

theorem SMART_ASSERT.text_last (pre post : List Char) (N i : Int) (hN : N ≠ 1) (hi : i ≠ 0)
    (hlast : i = N - 1) (hpre : (pre.count ',' : Int) + 1 = i) :
    SMART_ASSERT.text (pre ++ ',' :: post) N i
      = some (post.dropWhile (fun c => decide (c = ' '))) := by
  have hpos := _get_nth_comma_position_split pre post i hpre
  have hptr := ptr_add_after_comma pre post
  unfold SMART_ASSERT.text
  rw [if_neg hN, if_neg hi, if_pos hlast]
  simp only [hpos, hptr.1, hptr.2, printf_s]

theorem SMART_ASSERT.text_interior (pre mid post : List Char) (N i : Int) (hN : N ≠ 1)
    (hi : i ≠ 0) (hlast : i ≠ N - 1) (hpre : (pre.count ',' : Int) + 1 = i)
    (hmid : mid.count ',' = 0) :
    SMART_ASSERT.text (pre ++ ',' :: (mid ++ ',' :: post)) N i
      = some (mid.dropWhile (fun c => decide (c = ' '))) := by
  have hpos := _get_nth_comma_position_split pre (mid ++ ',' :: post) i hpre
  have hpos2 := _get_nth_comma_position_split (pre ++ ',' :: mid) post (i + 1)
    (by simp [hmid]; omega)
  rw [List.append_assoc, List.cons_append] at hpos2
  have hptr := ptr_add_after_comma pre (mid ++ ',' :: post)
  have hsp := _get_leading_spaces_eq (mid ++ ',' :: post)
  rw [takeWhile_append_stop _ _ _ (by decide)] at hsp
  have hlen := length_takeWhile_add_dropWhile (fun c => decide (c = ' ')) mid
  unfold SMART_ASSERT.text
  rw [if_neg hN, if_neg hi, if_neg hlast]
  simp only [hpos, hpos2, hptr.1, hptr.2]
  rw [hsp, dropWhile_append_stop _ _ _ (by decide)]
  unfold printf_precision_s
  rw [if_neg (by simp; omega)]
  congr 1
  have hnat : ((((pre ++ ',' :: mid).length : Int) - (pre.length : Int) - 1
      - ((mid.takeWhile (fun c => decide (c = ' '))).length : Int))).toNat
      = (mid.dropWhile (fun c => decide (c = ' '))).length := by
    simp only [List.length_append, List.length_cons, Nat.cast_add, Nat.cast_one]
    omega
  rw [hnat, List.take_left]


/-! ## The condition text, case by case (C3 to C8) -/

theorem exists_split_at_two_commas (S : List Char) (k : Nat) (hk : 1 ≤ k)
    (hc : k + 1 ≤ S.count ',') :
    ∃ pre mid post, S = pre ++ ',' :: (mid ++ ',' :: post) ∧ pre.count ',' + 1 = k ∧
      mid.count ',' = 0 := by
  obtain ⟨pre, rest, hS, hpre⟩ := exists_split_at_comma S k hk (by omega)
  have hrest : 1 ≤ rest.count ',' := by
    rw [hS, List.count_append, List.count_cons_self] at hc
    omega
  obtain ⟨mid, post, hrest', hmid⟩ := exists_split_at_comma rest 1 (le_refl 1) hrest
  exact ⟨pre, mid, post, by rw [hS, hrest'], hpre, by omega⟩

theorem SMART_ASSERT.single_false (site : CallSite) (S : List Char) (p : Process)
    (hp : p.aborted = false) :
    SMART_ASSERT site S [false] p =
      { stderr := p.stderr ++ [SMART_ASSERT.print site S 1 0], aborted := true } := by
  have hfi : failing_indices [false] = [0] := by decide
  simp [SMART_ASSERT, hp, SMART_ASSERT.final_eq, hfi]

/-- C3: with a single condition that is false, the text between the
backticks is the whole source text `S`, unsegmented and untrimmed, and the
one line written is the call-site prefix followed by "Condition", the
backticked text and "failed.", with no number.  For `SMART_ASSERT(x > 0)`
the line shows the text `x > 0`. -/
theorem SMART_ASSERT_single_condition (site : CallSite) (S : List Char) :
    SMART_ASSERT.text S 1 0 = some S ∧
    SMART_ASSERT site S [false] Process.start =
      { stderr := [some (_PRINT_SMART_ASSERT site
          ("Condition `".toList ++ S ++ "` failed.".toList))],
        aborted := true } ∧
    SMART_ASSERT demo_site "x > 0".toList [false] Process.start =
      { stderr := [some "main.c:42: main: SMART_ASSERT(): Condition `x > 0` failed.\n".toList],
        aborted := true } ∧
    SMART_ASSERT.text "  f(a, b)".toList 1 0 = some "  f(a, b)".toList := by
  refine ⟨SMART_ASSERT.text_only S 0, ?_, by decide, by decide⟩
  rw [SMART_ASSERT.single_false site S Process.start rfl]
  simp [Process.start, SMART_ASSERT.print, SMART_ASSERT.text_only, SMART_ASSERT.formatted]

/-- C4: with `N ≥ 2` conditions and a source text `S` that contains a comma,
the text printed for index 0 is the part of `S` before its first comma,
starting at offset 0 with nothing trimmed. -/
theorem SMART_ASSERT_first_condition_text (S : List Char) (N : Nat) (hN : 2 ≤ N)
    (hc : 1 ≤ S.count ',') :
    ∃ pre post, S = pre ++ ',' :: post ∧ ',' ∉ pre ∧
      pre = S.takeWhile (fun c => decide (c ≠ ',')) ∧
      SMART_ASSERT.text S N 0 = some pre := by
  obtain ⟨pre, post, hS, hpre⟩ := exists_split_at_comma S 1 (le_refl 1) hc
  have hpre0 : pre.count ',' = 0 := by omega
  have hnot : ',' ∉ pre := List.count_eq_zero.mp hpre0
  refine ⟨pre, post, hS, hnot, ?_, ?_⟩
  · rw [hS, takeWhile_append_stop _ _ _ (by decide)]
    symm
    rw [List.takeWhile_eq_self_iff]
    intro c hcmem
    have : c ≠ ',' := fun h => hnot (h ▸ hcmem)
    simpa using this
  · rw [hS]
    exact SMART_ASSERT.text_first pre post N (by omega) hpre0

/-- Witness of C4 on the source text of `SMART_ASSERT(  a, b)`. -/
theorem SMART_ASSERT_first_condition_text_witness :
    ∃ pre post, "  a, b".toList = pre ++ ',' :: post ∧ ',' ∉ pre ∧
      pre = "  a, b".toList.takeWhile (fun c => decide (c ≠ ',')) ∧
      SMART_ASSERT.text "  a, b".toList 2 0 = some pre :=
  SMART_ASSERT_first_condition_text "  a, b".toList 2 (by decide) (by decide)

/-- C5: with `N ≥ 2` conditions and at least `N - 1` commas in `S`, the text
printed for the last index `i = N - 1` is what follows the `i`-th comma of
`S`, without the spaces that directly follow that comma, up to the end of
`S`; the line is labelled with the number `i + 1` and no `#`.  For
`SMART_ASSERT(a == 1, b == 2)` with values (true, false) the only line is
labelled `2:` and shows `b == 2`. -/
theorem SMART_ASSERT_last_condition_text (site : CallSite) (S : List Char) (N i : Nat)
    (hN : 2 ≤ N) (hi : i + 1 = N) (hc : i ≤ S.count ',') :
    (∃ pre post, S = pre ++ ',' :: post ∧ pre.count ',' + 1 = i ∧
      SMART_ASSERT.text S N i = some (post.dropWhile (fun c => decide (c = ' '))) ∧
      SMART_ASSERT.print site S N i = some (_PRINT_SMART_ASSERT site
        ("Condition ".toList ++ printf_d ((i : Int) + 1) ++ ": `".toList
          ++ post.dropWhile (fun c => decide (c = ' ')) ++ "` failed.".toList))) ∧
    SMART_ASSERT demo_site "a == 1, b == 2".toList [true, false] Process.start =
      { stderr := [some "main.c:42: main: SMART_ASSERT(): Condition 2: `b == 2` failed.\n".toList],
        aborted := true } := by
  refine ⟨?_, by decide⟩
  obtain ⟨pre, post, hS, hpre⟩ := exists_split_at_comma S i (by omega) hc
  have htext : SMART_ASSERT.text S N i
      = some (post.dropWhile (fun c => decide (c = ' '))) := by
    rw [hS]
    exact SMART_ASSERT.text_last pre post N i (by omega) (by omega) (by omega) (by omega)
  refine ⟨pre, post, hS, hpre, htext, ?_⟩
  have h1 : ¬ (N : Int) = 1 := by omega
  have h2 : ¬ (i : Int) = 0 := by omega
  simp [SMART_ASSERT.print, htext, SMART_ASSERT.formatted, h1, h2]

/-- Witness of C5 on the source text of `SMART_ASSERT(a == 1, b == 2)`. -/
theorem SMART_ASSERT_last_condition_text_witness :
    ∃ pre post, "a == 1, b == 2".toList = pre ++ ',' :: post ∧ pre.count ',' + 1 = 1 ∧
      SMART_ASSERT.text "a == 1, b == 2".toList (2 : Nat) (1 : Nat)
        = some (post.dropWhile (fun c => decide (c = ' '))) ∧
      SMART_ASSERT.print demo_site "a == 1, b == 2".toList (2 : Nat) (1 : Nat)
        = some (_PRINT_SMART_ASSERT demo_site
          ("Condition ".toList ++ printf_d (((1 : Nat) : Int) + 1) ++ ": `".toList
            ++ post.dropWhile (fun c => decide (c = ' ')) ++ "` failed.".toList)) :=
  (SMART_ASSERT_last_condition_text demo_site "a == 1, b == 2".toList 2 1
    (by decide) (by decide) (by decide)).1


/-- C6: with `N ≥ 3` conditions, an interior index `0 < i < N - 1` and at
least `i + 1` commas in `S`, the text printed for index `i` is the part of
`S` between its `i`-th and `(i+1)`-th commas without the spaces that directly
follow the `i`-th comma, and its length is the difference of the two comma
positions, minus one, minus the leading-space count. -/
theorem SMART_ASSERT_interior_condition_text (S : List Char) (N i : Nat) (_hN : 3 ≤ N)
    (h0 : 0 < i) (hi : i + 1 < N) (hc : i + 1 ≤ S.count ',') :
    ∃ pre mid post, S = pre ++ ',' :: (mid ++ ',' :: post) ∧
      pre.count ',' + 1 = i ∧ ',' ∉ mid ∧
      _get_nth_comma_position S i = (pre.length : Int) ∧
      _get_nth_comma_position S ((i : Int) + 1) = (pre.length : Int) + 1 + (mid.length : Int) ∧
      _get_leading_spaces (mid ++ ',' :: post)
        = ((mid.takeWhile (fun c => decide (c = ' '))).length : Int) ∧
      SMART_ASSERT.text S N i = some (mid.dropWhile (fun c => decide (c = ' '))) ∧
      ((mid.dropWhile (fun c => decide (c = ' '))).length : Int)
        = _get_nth_comma_position S ((i : Int) + 1) - _get_nth_comma_position S i - 1
            - _get_leading_spaces (mid ++ ',' :: post) := by
  obtain ⟨pre, mid, post, hS, hpre, hmid⟩ := exists_split_at_two_commas S i h0 hc
  have hpos : _get_nth_comma_position S i = (pre.length : Int) := by
    rw [hS]
    exact _get_nth_comma_position_split pre (mid ++ ',' :: post) i (by omega)
  have hpos2 : _get_nth_comma_position S ((i : Int) + 1)
      = (pre.length : Int) + 1 + (mid.length : Int) := by
    have := _get_nth_comma_position_split (pre ++ ',' :: mid) post ((i : Int) + 1)
      (by simp [hmid]; omega)
    rw [List.append_assoc, List.cons_append, ← hS] at this
    rw [this]
    simp only [List.length_append, List.length_cons, Nat.cast_add, Nat.cast_one]
    omega
  have hsp : _get_leading_spaces (mid ++ ',' :: post)
      = ((mid.takeWhile (fun c => decide (c = ' '))).length : Int) := by
    rw [_get_leading_spaces_eq, takeWhile_append_stop _ _ _ (by decide)]
  have hlen := length_takeWhile_add_dropWhile (fun c => decide (c = ' ')) mid
  refine ⟨pre, mid, post, hS, hpre, List.count_eq_zero.mp hmid, hpos, hpos2, hsp, ?_, ?_⟩
  · rw [hS]
    exact SMART_ASSERT.text_interior pre mid post N i (by omega) (by omega) (by omega)
      (by omega) hmid
  · rw [hpos, hpos2, hsp]
    omega

/-- Witness of C6 on the source text of `SMART_ASSERT(a,  b c, d)`, index 1. -/
theorem SMART_ASSERT_interior_condition_text_witness :
    ∃ pre mid post, "a,  b c, d".toList = pre ++ ',' :: (mid ++ ',' :: post) ∧
      pre.count ',' + 1 = 1 ∧ ',' ∉ mid ∧
      _get_nth_comma_position "a,  b c, d".toList (1 : Nat) = (pre.length : Int) ∧
      _get_nth_comma_position "a,  b c, d".toList (((1 : Nat) : Int) + 1)
        = (pre.length : Int) + 1 + (mid.length : Int) ∧
      _get_leading_spaces (mid ++ ',' :: post)
        = ((mid.takeWhile (fun c => decide (c = ' '))).length : Int) ∧
      SMART_ASSERT.text "a,  b c, d".toList (3 : Nat) (1 : Nat)
        = some (mid.dropWhile (fun c => decide (c = ' '))) ∧
      ((mid.dropWhile (fun c => decide (c = ' '))).length : Int)
        = _get_nth_comma_position "a,  b c, d".toList (((1 : Nat) : Int) + 1)
            - _get_nth_comma_position "a,  b c, d".toList (1 : Nat) - 1
            - _get_leading_spaces (mid ++ ',' :: post) :=
  SMART_ASSERT_interior_condition_text "a,  b c, d".toList 3 1
    (by decide) (by decide) (by decide) (by decide)

theorem head?_printf_precision_s (precision : Int) (s : List Char) (c : Char)
    (h : s.head? ≠ some c) : (printf_precision_s precision s).head? ≠ some c := by
  unfold printf_precision_s
  split
  · exact h
  · cases s with
    | nil => simp
    | cons a s =>
      cases hn : precision.toNat with
      | zero => simp
      | succ n => simpa using h

theorem head?_dropWhile_space (s : List Char) :
    (s.dropWhile (fun c => decide (c = ' '))).head? ≠ some ' ' := by
  induction s with
  | nil => simp
  | cons a s ih =>
    by_cases ha : a = ' '
    · simpa [ha] using ih
    · simp [ha]

theorem SMART_ASSERT.text_later (pre post : List Char) (N i : Int) (hN : N ≠ 1) (hi : i ≠ 0)
    (hpre : (pre.count ',' : Int) + 1 = i) :
    ∃ t, SMART_ASSERT.text (pre ++ ',' :: post) N i = some t ∧ t.head? ≠ some ' ' := by
  have hpos := _get_nth_comma_position_split pre post i hpre
  have hptr := ptr_add_after_comma pre post
  unfold SMART_ASSERT.text
  rw [if_neg hN, if_neg hi]
  simp only [hpos, hptr.1, hptr.2, printf_s]
  split
  · exact ⟨_, rfl, head?_dropWhile_space post⟩
  · exact ⟨_, rfl, head?_printf_precision_s _ _ _ (head?_dropWhile_space post)⟩

/-- C7: with `N ≥ 2` conditions, an index `1 ≤ i < N` and at least `i` commas
in `S`, the text printed for index `i` does not begin with a space; and for
every `m`, the source text `a,` followed by `m` spaces and `b`, taken with
two conditions, gives the text `b` for the second one. -/
theorem SMART_ASSERT_text_no_leading_space (S : List Char) (N i : Nat) (hN : 2 ≤ N)
    (h1 : 1 ≤ i) (_hi : i < N) (hc : i ≤ S.count ',') :
    (∃ t, SMART_ASSERT.text S N i = some t ∧ t.head? ≠ some ' ') ∧
    (∀ m : Nat, SMART_ASSERT.text ("a,".toList ++ List.replicate m ' ' ++ "b".toList) 2 1
      = some "b".toList) := by
  constructor
  · obtain ⟨pre, post, hS, hpre⟩ := exists_split_at_comma S i h1 hc
    rw [hS]
    exact SMART_ASSERT.text_later pre post N i (by omega) (by omega) (by omega)
  · intro m
    have h := SMART_ASSERT.text_last ['a'] (List.replicate m ' ' ++ ['b']) 2 1
      (by decide) (by decide) (by decide) (by decide)
    have hS : "a,".toList ++ List.replicate m ' ' ++ "b".toList
        = ['a'] ++ ',' :: (List.replicate m ' ' ++ ['b']) := by
      simp
    rw [hS, h, dropWhile_append_stop _ _ _ (by decide)]
    have hrep : (List.replicate m ' ').dropWhile (fun c => decide (c = ' ')) = [] := by
      rw [List.dropWhile_eq_nil_iff]
      intro c hc
      simp [List.eq_of_mem_replicate hc]
    rw [hrep]
    rfl

/-- Witness of C7 on the source text `a,   b`, index 1 of 2. -/
theorem SMART_ASSERT_text_no_leading_space_witness :
    ∃ t, SMART_ASSERT.text "a,   b".toList (2 : Nat) (1 : Nat) = some t ∧ t.head? ≠ some ' ' :=
  (SMART_ASSERT_text_no_leading_space "a,   b".toList 2 1
    (by decide) (by decide) (by decide) (by decide)).1

/-- C8: the scan counts every literal comma, whatever surrounds it: the
`k`-th comma found is the one preceded by `k - 1` commas.  For
`SMART_ASSERT(f(), g(x, y), h())` with three false conditions three lines are
written, and the text of the middle one is `g(x`, not `g(x, y)`. -/
theorem SMART_ASSERT_nested_comma_splits :
    (∀ (pre post : List Char) (k : Int), (pre.count ',' : Int) + 1 = k →
      _get_nth_comma_position (pre ++ ',' :: post) k = (pre.length : Int)) ∧
    SMART_ASSERT demo_site "f(), g(x, y), h()".toList [false, false, false] Process.start =
      { stderr :=
          [some "main.c:42: main: SMART_ASSERT(): Condition #1: `f()` failed.\n".toList,
           some "main.c:42: main: SMART_ASSERT(): Condition 2: `g(x` failed.\n".toList,
           some "main.c:42: main: SMART_ASSERT(): Condition 3: `y), h()` failed.\n".toList],
        aborted := true } ∧
    SMART_ASSERT.text "f(), g(x, y), h()".toList 3 1 = some "g(x".toList ∧
    SMART_ASSERT.text "f(), g(x, y), h()".toList 3 1 ≠ some "g(x, y)".toList :=
  ⟨_get_nth_comma_position_split, by decide, by decide, by decide⟩

/-- Witness of C8: the second comma of `f(), g(x, y), h()` is the nested one. -/
theorem SMART_ASSERT_nested_comma_splits_witness :
    _get_nth_comma_position ("f(), g(x".toList ++ ',' :: " y), h()".toList) 2
      = ("f(), g(x".toList.length : Int) :=
  SMART_ASSERT_nested_comma_splits.1 "f(), g(x".toList " y), h()".toList 2 (by decide)


/-! ## Commas in the condition text (C9) -/

theorem count_comma_takeWhile_space (s : List Char) :
    (s.takeWhile (fun c => decide (c = ' '))).count ',' = 0 := by
  rw [List.count_eq_zero]
  intro hmem
  have := List.mem_takeWhile_imp hmem
  simp at this

theorem not_mem_dropWhile_of_count (s : List Char) (h : s.count ',' = 0) :
    ',' ∉ s.dropWhile (fun c => decide (c = ' ')) := by
  intro hmem
  exact (List.count_eq_zero.mp h) ((List.dropWhile_suffix _).subset hmem)

/-- C9, as stated, fails: the text printed is the one-character string `,`
for the source text `,` taken as a single condition, and for the last of the
two conditions of the source text `a,,`.  The text of the last condition
keeps every comma of the source text that comes after its separator, as in
`SMART_ASSERT(f(), g(x, y))`. -/
theorem SMART_ASSERT_text_can_be_comma :
    SMART_ASSERT.text ",".toList 1 0 = some ",".toList ∧
    SMART_ASSERT.text "a,,".toList 2 1 = some ",".toList ∧
    SMART_ASSERT.text "f(), g(x, y)".toList 2 1 = some "g(x, y)".toList := by
  decide

/-- C9, amended: when `S` has at least `N - 1` commas, and exactly `N - 1` if
`i` is the last index, the text printed for index `i < N` is a segment of `S`
that contains no comma (so it is not the string `,`), that has exactly the
`i` commas before it in front of it, and that, for an index that is not the
last, ends where the next comma stands. -/
theorem SMART_ASSERT_text_without_comma (S : List Char) (N i : Nat) (_hN : 1 ≤ N)
    (hi : i < N) (hc : N - 1 ≤ S.count ',') (hlast : i + 1 = N → S.count ',' = N - 1) :
    ∃ pre t post, S = pre ++ t ++ post ∧ pre.count ',' = i ∧
      SMART_ASSERT.text S N i = some t ∧ ',' ∉ t ∧ t ≠ [','] ∧
      (i + 1 < N → post.head? = some ',') := by
  have key : ∀ pre t post, S = pre ++ t ++ post → pre.count ',' = i →
      SMART_ASSERT.text S N i = some t → ',' ∉ t → (i + 1 < N → post.head? = some ',') →
      ∃ pre t post, S = pre ++ t ++ post ∧ pre.count ',' = i ∧
        SMART_ASSERT.text S N i = some t ∧ ',' ∉ t ∧ t ≠ [','] ∧
        (i + 1 < N → post.head? = some ',') := by
    intro pre t post h1 h2 h3 h4 h5
    exact ⟨pre, t, post, h1, h2, h3, h4, fun h => h4 (h ▸ List.mem_singleton_self _), h5⟩
  by_cases hN1 : N = 1
  · subst hN1
    have hi0 : i = 0 := by omega
    subst hi0
    have hcount : S.count ',' = 0 := hlast rfl
    refine key [] S [] (by simp) rfl ?_ (List.count_eq_zero.mp hcount) (by omega)
    exact SMART_ASSERT.text_only S _
  by_cases hi0 : i = 0
  · subst hi0
    obtain ⟨pre, post, hS, hpre⟩ := exists_split_at_comma S 1 (le_refl 1) (by omega)
    have hpre0 : pre.count ',' = 0 := by omega
    refine key [] pre (',' :: post) (by simp [hS]) rfl ?_ (List.count_eq_zero.mp hpre0)
      (fun _ => rfl)
    rw [hS]
    exact SMART_ASSERT.text_first pre post N (by omega) hpre0
  by_cases hil : i + 1 = N
  · obtain ⟨pre, post, hS, hpre⟩ := exists_split_at_comma S i (by omega) (by omega)
    have hpost : post.count ',' = 0 := by
      have := hlast hil
      rw [hS, List.count_append, List.count_cons_self] at this
      omega
    refine key (pre ++ ',' :: post.takeWhile (fun c => decide (c = ' ')))
      (post.dropWhile (fun c => decide (c = ' '))) [] ?_ ?_ ?_
      (not_mem_dropWhile_of_count post hpost) (by omega)
    · simp [hS]
    · rw [List.count_append, List.count_cons_self, count_comma_takeWhile_space]
      omega
    · rw [hS]
      exact SMART_ASSERT.text_last pre post N i (by omega) (by omega) (by omega) (by omega)
  · obtain ⟨pre, mid, post, hS, hpre, hmid⟩ :=
      exists_split_at_two_commas S i (by omega) (by omega)
    refine key (pre ++ ',' :: mid.takeWhile (fun c => decide (c = ' ')))
      (mid.dropWhile (fun c => decide (c = ' '))) (',' :: post) ?_ ?_ ?_
      (not_mem_dropWhile_of_count mid hmid) (fun _ => rfl)
    · rw [hS]
      simp only [List.append_assoc, List.cons_append]
      rw [← List.append_assoc (List.takeWhile _ mid), List.takeWhile_append_dropWhile]
    · rw [List.count_append, List.count_cons_self, count_comma_takeWhile_space]
      omega
    · rw [hS]
      exact SMART_ASSERT.text_interior pre mid post N i (by omega) (by omega) (by omega)
        (by omega) hmid

/-- Witness of amended C9 on the source text of `SMART_ASSERT(a, b, c)`, index 1. -/
theorem SMART_ASSERT_text_without_comma_witness :
    ∃ pre t post, "a, b, c".toList = pre ++ t ++ post ∧ pre.count ',' = 1 ∧
      SMART_ASSERT.text "a, b, c".toList (3 : Nat) (1 : Nat) = some t ∧ ',' ∉ t ∧ t ≠ [','] ∧
      (1 + 1 < 3 → post.head? = some ',') :=
  SMART_ASSERT_text_without_comma "a, b, c".toList 3 1
    (by decide) (by decide) (by decide) (by decide)


/-! ## The format of a diagnostic line (C10) -/

theorem digitChar_isDigit (d : Nat) (h : d < 10) : (Nat.digitChar d).isDigit = true := by
  interval_cases d <;> decide

theorem toDigitsCore_isDigit : ∀ (fuel n : Nat) (ds : List Char),
    (∀ c ∈ ds, c.isDigit = true) → ∀ c ∈ Nat.toDigitsCore 10 fuel n ds, c.isDigit = true := by
  intro fuel
  induction fuel with
  | zero => intro n ds h; simpa [Nat.toDigitsCore] using h
  | succ fuel ih =>
    intro n ds h
    have hd : ∀ c ∈ Nat.digitChar (n % 10) :: ds, c.isDigit = true := by
      intro c hc
      rcases List.mem_cons.mp hc with rfl | hc
      · exact digitChar_isDigit _ (Nat.mod_lt _ (by decide))
      · exact h c hc
    rw [Nat.toDigitsCore]
    split
    · exact hd
    · exact ih _ _ hd

theorem printf_d_natCast (n : Nat) : printf_d (n : Int) = (toString n).toList := rfl

theorem toString_isDigit (n : Nat) : ∀ c ∈ (toString n).toList, c.isDigit = true := by
  show ∀ c ∈ (Nat.repr n).toList, c.isDigit = true
  unfold Nat.repr Nat.toDigits
  exact toDigitsCore_isDigit _ _ [] (by simp)

/-- C10: the line written for a failing index `i` of an invocation with `N`
conditions is the documented one: basename, line number, function name, the
tag `SMART_ASSERT():`, then "Condition", the label and "failed." with a
newline, where the label is the backticked text when `N = 1`, that text
after `#1:` when `i = 0` and `N > 1`, and after the digits of `i + 1` and a
colon otherwise; that number consists of decimal digits only, so `#` shows
in the first-of-several form alone. -/
theorem SMART_ASSERT_line_format (site : CallSite) (S : List Char) (assertions : List Bool)
    (i : Nat) (hfail : assertions[i]? = some false) :
    SMART_ASSERT.print site S assertions.length i
      = (SMART_ASSERT.text S assertions.length i).map
          (fun t => documented_line site (documented_label assertions.length i t)) ∧
    (SMART_ASSERT.text S assertions.length i).map
        (fun t => documented_line site (documented_label assertions.length i t))
      ∈ (SMART_ASSERT site S assertions Process.start).stderr ∧
    (∀ c ∈ (toString (i + 1)).toList, c.isDigit = true) ∧
    '#' ∉ (toString (i + 1)).toList := by
  have hprint : SMART_ASSERT.print site S assertions.length i
      = (SMART_ASSERT.text S assertions.length i).map
          (fun t => documented_line site (documented_label assertions.length i t)) := by
    have hcast : ((i : Int) + 1) = ((i + 1 : Nat) : Int) := by push_cast; rfl
    unfold SMART_ASSERT.print
    cases SMART_ASSERT.text S assertions.length i with
    | none => rfl
    | some t =>
      simp only [Option.map_some', SMART_ASSERT.formatted, documented_label, documented_line,
        _PRINT_SMART_ASSERT, printf_s, hcast, printf_d_natCast]
      by_cases hN : assertions.length = 1
      · simp [hN, printf_d]
      · by_cases hi : i = 0
        · subst hi
          have h1 : (toString (1 : Nat)).data = ['1'] := by decide
          simp [hN, printf_d, h1]
        · simp [hN, hi, printf_d]
  refine ⟨hprint, ?_, toString_isDigit (i + 1), ?_⟩
  · have hout : (SMART_ASSERT site S assertions Process.start).stderr
        = (failing_indices assertions).map
            (fun (j : Nat) => SMART_ASSERT.print site S assertions.length j) := by
      simp [SMART_ASSERT, Process.start, SMART_ASSERT.final_eq]
    rw [hout, ← hprint]
    exact List.mem_map.mpr ⟨i, (mem_failing_indices assertions i).mpr hfail, rfl⟩
  · intro hmem
    have := toString_isDigit (i + 1) '#' hmem
    revert this
    decide

/-- Witness of C10 on `SMART_ASSERT(a == 1, b == 2)` with values (true, false). -/
theorem SMART_ASSERT_line_format_witness :
    SMART_ASSERT.print demo_site "a == 1, b == 2".toList ([true, false].length) (1 : Nat)
      = (SMART_ASSERT.text "a == 1, b == 2".toList ([true, false].length) (1 : Nat)).map
          (fun t => documented_line demo_site (documented_label [true, false].length 1 t)) :=
  (SMART_ASSERT_line_format demo_site "a == 1, b == 2".toList [true, false] 1 (by decide)).1


/-! ## The reported file name (C11) -/

theorem strrchr_eq_none (c : Char) : ∀ s : List Char, c ∉ s → strrchr s c = none := by
  intro s
  induction s with
  | nil => intro _; rfl
  | cons x xs ih =>
    intro h
    rw [List.mem_cons, not_or] at h
    simp [strrchr, ih h.2, Ne.symm h.1]

theorem strrchr_eq_some (c : Char) : ∀ s : List Char, c ∈ s →
    ∃ pre rest, s = pre ++ c :: rest ∧ c ∉ rest ∧ strrchr s c = some (c :: rest) := by
  intro s
  induction s with
  | nil => intro h; cases h
  | cons x xs ih =>
    intro h
    by_cases hxs : c ∈ xs
    · obtain ⟨pre, rest, hs, hrest, hr⟩ := ih hxs
      exact ⟨x :: pre, rest, by rw [hs]; rfl, hrest, by simp [strrchr, hr]⟩
    · have hx : x = c := by
        rcases List.mem_cons.mp h with h | h
        · exact h.symm
        · exact absurd h hxs
      subst hx
      exact ⟨[], xs, rfl, hxs, by simp [strrchr, strrchr_eq_none x xs hxs]⟩

/-- C11: the reported file name is the part of the path after its last `/`:
it contains no `/`, it is the whole path when the path contains no `/`, and
otherwise the path is a directory part, a `/` and the reported name. -/
theorem FILENAME_is_basename (file : List Char) :
    '/' ∉ __FILENAME__ file ∧
    ('/' ∉ file → __FILENAME__ file = file) ∧
    ('/' ∈ file → ∃ dir, file = dir ++ '/' :: __FILENAME__ file) ∧
    __FILENAME__ "src/lib/main.c".toList = "main.c".toList ∧
    __FILENAME__ "main.c".toList = "main.c".toList := by
  have hnone : '/' ∉ file → __FILENAME__ file = file := by
    intro h
    simp [__FILENAME__, strrchr_eq_none '/' file h]
  have hsome : '/' ∈ file →
      ∃ dir, file = dir ++ '/' :: __FILENAME__ file ∧ '/' ∉ __FILENAME__ file := by
    intro h
    obtain ⟨pre, rest, hs, hrest, hr⟩ := strrchr_eq_some '/' file h
    have hname : __FILENAME__ file = rest := by simp [__FILENAME__, hr]
    exact ⟨pre, by rw [hname]; exact hs, by rw [hname]; exact hrest⟩
  refine ⟨?_, hnone, ?_, by decide, by decide⟩
  · by_cases h : '/' ∈ file
    · obtain ⟨_, _, hno⟩ := hsome h
      exact hno
    · rw [hnone h]
      exact h
  · intro h
    obtain ⟨dir, hd, _⟩ := hsome h
    exact ⟨dir, hd⟩

/-- Witness of C11 on the path `src/lib/main.c`. -/
theorem FILENAME_is_basename_witness :
    ∃ dir, "src/lib/main.c".toList = dir ++ '/' :: __FILENAME__ "src/lib/main.c".toList :=
  (FILENAME_is_basename "src/lib/main.c".toList).2.2.1 (by decide)

/-! ## `DEBUG_SMART_ASSERT` (C12) -/

theorem comma_expression_eq {σ : Type} : ∀ (args : List (σ → Bool × σ)) (s : σ),
    comma_expression args s = (initializer_list args s).2 := by
  intro args
  induction args with
  | nil => intro s; rfl
  | cons e es ih => intro s; simp [comma_expression, initializer_list, ih]

theorem initializer_list_length {σ : Type} : ∀ (args : List (σ → Bool × σ)) (s : σ),
    (initializer_list args s).1.length = args.length := by
  intro args
  induction args with
  | nil => intro s; rfl
  | cons e es ih => intro s; simp [initializer_list, ih]

/-- C12: without `DEBUG_MODE`, `DEBUG_SMART_ASSERT` on `N ≥ 1` argument
expressions of a running process writes nothing and does not abort, whatever
the values, and leaves the program state that evaluating every argument once
from left to right leaves, which is the program state the enabled mode
leaves; with `DEBUG_MODE` it is `SMART_ASSERT` on the `N` values. -/
theorem DEBUG_SMART_ASSERT_modes {σ : Type} (site : CallSite) (S : List Char)
    (args : List (σ → Bool × σ)) (s : σ) (p : Process)
    (_hN : 1 ≤ args.length) (hp : p.aborted = false) :
    (DEBUG_SMART_ASSERT false site S args (s, p)).2 = p ∧
    (DEBUG_SMART_ASSERT false site S args (s, p)).1 = (initializer_list args s).2 ∧
    (DEBUG_SMART_ASSERT false site S args (s, p)).1
      = (DEBUG_SMART_ASSERT true site S args (s, p)).1 ∧
    DEBUG_SMART_ASSERT true site S args (s, p) = SMART_ASSERT.statement site S args (s, p) ∧
    (DEBUG_SMART_ASSERT true site S args (s, p)).2
      = SMART_ASSERT site S (initializer_list args s).1 p ∧
    (initializer_list args s).1.length = args.length ∧
    DEBUG_SMART_ASSERT false demo_site "f(), g()".toList [counting false, counting false]
      (0, Process.start) = (2, Process.start) ∧
    (DEBUG_SMART_ASSERT true demo_site "f(), g()".toList [counting false, counting false]
      (0, Process.start)).1 = 2 ∧
    (DEBUG_SMART_ASSERT true demo_site "f(), g()".toList [counting false, counting false]
      (0, Process.start)).2.aborted = true := by
  refine ⟨?_, ?_, ?_, ?_, ?_, initializer_list_length args s, by decide, by decide, by decide⟩
    <;> simp [DEBUG_SMART_ASSERT, SMART_ASSERT.statement, hp, comma_expression_eq]

/-- Witness of C12: two false conditions that count their evaluations. -/
theorem DEBUG_SMART_ASSERT_modes_witness :
    (DEBUG_SMART_ASSERT false demo_site "f(), g()".toList [counting false, counting false]
      (0, Process.start)).2 = Process.start ∧
    (DEBUG_SMART_ASSERT false demo_site "f(), g()".toList [counting false, counting false]
      (0, Process.start)).1
      = (DEBUG_SMART_ASSERT true demo_site "f(), g()".toList [counting false, counting false]
          (0, Process.start)).1 :=
  have h := DEBUG_SMART_ASSERT_modes demo_site "f(), g()".toList
    [counting false, counting false] 0 Process.start (by decide) rfl
  ⟨h.1, h.2.2.1⟩

/-! ## The position returned by `_get_nth_comma_position` (C13, C17, C18) -/

theorem _get_nth_comma_position.loop_missing (k : Int) : ∀ (s : List Char) (idx found : Int),
    found + (s.count ',' : Int) < k →
      (_get_nth_comma_position.loop k s idx found).2 = found + (s.count ',' : Int) := by
  intro s
  induction s with
  | nil => intro idx found _; simp [_get_nth_comma_position.loop]
  | cons c s ih =>
    intro idx found h
    by_cases hc : c = ','
    · subst hc
      simp only [List.count_cons_self, Nat.cast_add, Nat.cast_one] at h ⊢
      have hne : ¬ found + 1 = k := by omega
      rw [_get_nth_comma_position.loop]
      simp only [if_true, hne, if_false]
      rw [ih (idx + 1) (found + 1) (by omega)]
      omega
    · rw [List.count_cons_of_ne (Ne.symm hc)] at h ⊢
      have hne : ¬ found = k := by omega
      rw [_get_nth_comma_position.loop]
      simp only [hc, if_false, hne]
      exact ih (idx + 1) found h

theorem _get_nth_comma_position_missing (S : List Char) (k : Int)
    (h : (S.count ',' : Int) < k) : _get_nth_comma_position S k = 0 := by
  unfold _get_nth_comma_position
  have := _get_nth_comma_position.loop_missing k S 0 0 (by omega)
  simp only [this]
  rw [if_neg (by omega)]

theorem _get_nth_comma_position_found (S : List Char) (k : Int) (hk : 1 ≤ k)
    (h : k ≤ (S.count ',' : Int)) :
    ∃ pre post, S = pre ++ ',' :: post ∧ (pre.count ',' : Int) + 1 = k ∧
      _get_nth_comma_position S k = (pre.length : Int) := by
  obtain ⟨pre, post, hS, hpre⟩ := exists_split_at_comma S k.toNat (by omega) (by omega)
  refine ⟨pre, post, hS, by omega, ?_⟩
  rw [hS]
  exact _get_nth_comma_position_split pre post k (by omega)


/-- C13, as stated, fails: in `a,b` the first comma stands at index 1, the
index just after it is 2, and the function returns 1. -/
theorem _get_nth_comma_position_not_after_comma :
    "a,b".toList[1]? = some ',' ∧ ("a,b".toList.take 1).count ',' = 0 ∧
    _get_nth_comma_position "a,b".toList 1 = 1 ∧
    _get_nth_comma_position "a,b".toList 1 ≠ 1 + 1 := by
  decide

/-- C13, amended: for `k ≥ 1`, `_get_nth_comma_position(S, k)` returns the
index of the `k`-th comma of `S` itself (the length of what stands before
it) when `S` contains at least `k` commas, and 0 when it contains fewer. -/
theorem _get_nth_comma_position_returns_comma_index (S : List Char) (k : Int) (hk : 1 ≤ k) :
    (k ≤ (S.count ',' : Int) →
      ∃ pre post, S = pre ++ ',' :: post ∧ (pre.count ',' : Int) + 1 = k ∧
        _get_nth_comma_position S k = (pre.length : Int)) ∧
    ((S.count ',' : Int) < k → _get_nth_comma_position S k = 0) :=
  ⟨_get_nth_comma_position_found S k hk, _get_nth_comma_position_missing S k⟩

/-- Witness of amended C13 on `f(), g(x, y)` and its second comma. -/
theorem _get_nth_comma_position_returns_comma_index_witness :
    ∃ pre post, "f(), g(x, y)".toList = pre ++ ',' :: post ∧ (pre.count ',' : Int) + 1 = 2 ∧
      _get_nth_comma_position "f(), g(x, y)".toList 2 = (pre.length : Int) :=
  (_get_nth_comma_position_returns_comma_index "f(), g(x, y)".toList 2 (by decide)).1
    (by decide)

theorem getElem?_split (pre post : List Char) (c : Char) :
    (pre ++ c :: post)[pre.length]? = some c := by
  rw [List.getElem?_append_right (le_refl _)]
  simp

/-- C17: for `k ≥ 1` and a string `S` with at least `k` commas, the index `r`
returned by `_get_nth_comma_position(S, k)` lies inside `S`, `S[r]` is a
comma, exactly `k - 1` commas stand before `r`, and `r` is greater than the
index returned for every smaller `j ≥ 1`. -/
theorem _get_nth_comma_position_index (S : List Char) (k : Int) (hk : 1 ≤ k)
    (h : k ≤ (S.count ',' : Int)) :
    ∃ r : Nat, _get_nth_comma_position S k = (r : Int) ∧ r < S.length ∧
      S[r]? = some ',' ∧ ((S.take r).count ',' : Int) = k - 1 ∧
      ∀ j : Int, 1 ≤ j → j < k → _get_nth_comma_position S j < _get_nth_comma_position S k := by
  obtain ⟨pre, post, hS, hpre, hpos⟩ := _get_nth_comma_position_found S k hk h
  refine ⟨pre.length, hpos, ?_, ?_, ?_, ?_⟩
  · rw [hS]
    simp
  · rw [hS]
    exact getElem?_split pre post ','
  · rw [hS, List.take_left]
    omega
  · intro j hj hjk
    obtain ⟨pre', post', hS', hpre', hpos'⟩ := _get_nth_comma_position_found S j hj (by omega)
    rw [hpos, hpos']
    by_contra hle
    have hlen : pre.length ≤ pre'.length := by omega
    have htake : pre = pre'.take pre.length := by
      have h1 : S.take pre.length = pre := by rw [hS, List.take_left]
      have h2 : S.take pre.length = pre'.take pre.length := by
        rw [hS', List.take_append_of_le_length hlen]
      exact h1.symm.trans h2
    have hcount : pre.count ',' ≤ pre'.count ',' := by
      rw [htake]
      exact (List.take_sublist _ _).count_le _
    omega

/-- Witness of C17 on `a, b, c` and its second comma. -/
theorem _get_nth_comma_position_index_witness :
    ∃ r : Nat, _get_nth_comma_position "a, b, c".toList 2 = (r : Int) ∧
      r < "a, b, c".toList.length ∧ "a, b, c".toList[r]? = some ',' ∧
      (("a, b, c".toList.take r).count ',' : Int) = 2 - 1 ∧
      ∀ j : Int, 1 ≤ j → j < 2 →
        _get_nth_comma_position "a, b, c".toList j < _get_nth_comma_position "a, b, c".toList 2 :=
  _get_nth_comma_position_index "a, b, c".toList 2 (by decide) (by decide)

/-- C18: `_get_nth_comma_position` returns 0 both when the string has fewer
than `k ≥ 1` commas and when `k = 1` and the string begins with a comma.  So
for a non-empty `S` without a comma taken with two conditions, the text of
the last condition (index 1) is `S` without its first character and then
without leading spaces, and the text of index 0 is empty. -/
theorem SMART_ASSERT_text_without_separator (S : List Char) (hne : S ≠ [])
    (hc : S.count ',' = 0) :
    (∀ (T : List Char) (k : Int), 1 ≤ k → (T.count ',' : Int) < k →
      _get_nth_comma_position T k = 0) ∧
    (∀ rest : List Char, _get_nth_comma_position (',' :: rest) 1 = 0) ∧
    SMART_ASSERT.text S 2 1 = some ((S.drop 1).dropWhile (fun c => decide (c = ' '))) ∧
    SMART_ASSERT.text S 2 0 = some [] := by
  have hpos : _get_nth_comma_position S 1 = 0 :=
    _get_nth_comma_position_missing S 1 (by omega)
  have hlen : 1 ≤ S.length := by
    cases S with
    | nil => exact absurd rfl hne
    | cons a s => simp
  have hle := (List.takeWhile_prefix (fun c => decide (c = ' ')) (l := S.drop 1)).length_le
  rw [List.length_drop] at hle
  refine ⟨fun T k _ h => _get_nth_comma_position_missing T k h, ?_, ?_, ?_⟩
  · intro rest
    simp [_get_nth_comma_position, _get_nth_comma_position.loop]
  · have hp1 : ptr_add S (0 + 1) = some (S.drop 1) := by
      have := ptr_add_natCast S 1 hlen
      simpa using this
    have hp2 : ptr_add S (0 + 1 + _get_leading_spaces (S.drop 1))
        = some ((S.drop 1).dropWhile (fun c => decide (c = ' '))) := by
      rw [_get_leading_spaces_eq]
      have := ptr_add_natCast S
        (1 + ((S.drop 1).takeWhile (fun c => decide (c = ' '))).length) (by omega)
      rw [← drop_length_takeWhile, List.drop_drop]
      simp only [Nat.cast_add, Nat.cast_one] at this
      simpa using this
    unfold SMART_ASSERT.text
    rw [if_neg (by decide), if_neg (by decide), if_pos (by decide)]
    simp only [hpos, hp1, hp2, printf_s]
  · simp [SMART_ASSERT.text, hpos, printf_precision_s]

/-- Witness of C18 on the source text `a b` taken with two conditions. -/
theorem SMART_ASSERT_text_without_separator_witness :
    SMART_ASSERT.text "a b".toList 2 1
      = some (("a b".toList.drop 1).dropWhile (fun c => decide (c = ' '))) ∧
    SMART_ASSERT.text "a b".toList 2 0 = some [] :=
  (SMART_ASSERT_text_without_separator "a b".toList (by decide) (by decide)).2.2


/-! ## The count returned by `_get_leading_spaces` (C14) -/

theorem take_length_takeWhile (p : Char → Bool) (s : List Char) :
    s.take (s.takeWhile p).length = s.takeWhile p := by
  have h := List.take_left (s.takeWhile p) (s.dropWhile p)
  rwa [List.takeWhile_append_dropWhile] at h

/-- C14: `_get_leading_spaces(S)` returns a count `n` within `S` such that
the first `n` characters of `S` are spaces and the character at offset `n`,
if there is one, is not a space; a string that starts with any other
character, a tab or a newline included, yields 0. -/
theorem _get_leading_spaces_counts_spaces (S : List Char) :
    (∃ n : Nat, _get_leading_spaces S = (n : Int) ∧ n ≤ S.length ∧
      S.take n = List.replicate n ' ' ∧ S[n]? ≠ some ' ') ∧
    (∀ (c : Char) (rest : List Char), c ≠ ' ' → _get_leading_spaces (c :: rest) = 0) ∧
    _get_leading_spaces ('\t' :: S) = 0 ∧
    _get_leading_spaces ('\n' :: S) = 0 ∧
    _get_leading_spaces "   x  ".toList = 3 := by
  have hstart : ∀ (c : Char) (rest : List Char), c ≠ ' ' →
      _get_leading_spaces (c :: rest) = 0 := by
    intro c rest hc
    simp [_get_leading_spaces, _get_leading_spaces.loop, hc]
  refine ⟨⟨(S.takeWhile (fun c => decide (c = ' '))).length, _get_leading_spaces_eq S,
    (List.takeWhile_prefix _).length_le, ?_, ?_⟩, hstart, hstart _ S (by decide),
    hstart _ S (by decide), by decide⟩
  · rw [take_length_takeWhile, List.eq_replicate_iff]
    refine ⟨rfl, ?_⟩
    intro b hb
    have := List.mem_takeWhile_imp hb
    simpa using this
  · have h := head?_dropWhile_space S
    rw [← drop_length_takeWhile, List.head?_drop] at h
    exact h

/-- Witness of C14: a string that starts with a tab. -/
theorem _get_leading_spaces_counts_spaces_witness :
    _get_leading_spaces "\t  x".toList = 0 :=
  (_get_leading_spaces_counts_spaces []).2.1 '\t' "  x".toList (by decide)

/-! ## The condition text against splitting at commas (C15) -/

theorem splitOn_comma_cons (c : Char) (s : List Char) :
    (c :: s).splitOn ',' =
      if c = ',' then [] :: s.splitOn ',' else (s.splitOn ',').modifyHead (List.cons c) := by
  unfold List.splitOn
  rw [List.splitOnP_cons]
  by_cases hc : c = ',' <;> simp [hc]

theorem splitOn_comma_single (s : List Char) (h : s.count ',' = 0) : s.splitOn ',' = [s] := by
  unfold List.splitOn
  apply List.splitOnP_eq_single
  intro x hx hp
  have hx' : x = ',' := by simpa using hp
  exact (List.count_eq_zero.mp h) (hx' ▸ hx)

theorem splitOn_comma_first (pre post : List Char) (h : pre.count ',' = 0) :
    (pre ++ ',' :: post).splitOn ',' = pre :: post.splitOn ',' := by
  unfold List.splitOn
  apply List.splitOnP_first
  · intro x hx hp
    have hx' : x = ',' := by simpa using hp
    exact (List.count_eq_zero.mp h) (hx' ▸ hx)
  · simp

theorem drop_succ_modifyHead (f : List Char → List Char) (l : List (List Char)) (n : Nat) :
    (l.modifyHead f).drop (n + 1) = l.drop (n + 1) := by
  cases l <;> simp

theorem drop_splitOn_comma (rest : List Char) : ∀ (pre : List Char) (k : Nat),
    pre.count ',' + 1 = k → ((pre ++ ',' :: rest).splitOn ',').drop k = rest.splitOn ',' := by
  intro pre
  induction pre with
  | nil =>
    intro k hk
    simp at hk
    subst hk
    simp [splitOn_comma_cons]
  | cons c pre ih =>
    intro k hk
    by_cases hc : c = ','
    · subst hc
      rw [List.count_cons_self] at hk
      subst hk
      rw [List.cons_append, splitOn_comma_cons, if_pos rfl, List.drop_succ_cons]
      exact ih _ rfl
    · rw [List.count_cons_of_ne (Ne.symm hc)] at hk
      subst hk
      rw [List.cons_append, splitOn_comma_cons, if_neg hc, drop_succ_modifyHead]
      exact ih _ rfl

theorem getD_of_drop (l : List (List Char)) (i : Nat) (x : List Char) (t : List (List Char))
    (h : l.drop i = x :: t) : l.getD i [] = x := by
  have h0 : (l.drop i)[0]? = some x := by rw [h]; simp
  rw [List.getElem?_drop] at h0
  simp only [Nat.add_zero] at h0
  simp [h0]

/-- C15: for `N ≥ 2` conditions, a source text `S` with exactly `N - 1`
commas and an index `i < N`, the text printed for index `i` is the `i`-th
piece of `S` split at its commas, without its leading spaces when `i ≥ 1`
and as it stands when `i = 0`; nothing is removed at the end of the piece. -/
theorem SMART_ASSERT_text_refines_split (S : List Char) (N i : Nat) (hN : 2 ≤ N)
    (hc : S.count ',' + 1 = N) (hi : i < N) :
    SMART_ASSERT.text S N i = some (reference_text S i) ∧
    SMART_ASSERT.text "  a ,  b c , d".toList 3 0 = some "  a ".toList ∧
    SMART_ASSERT.text "  a ,  b c , d".toList 3 1 = some "b c ".toList := by
  refine ⟨?_, by decide, by decide⟩
  by_cases hi0 : i = 0
  · subst hi0
    obtain ⟨pre, post, hS, hpre⟩ := exists_split_at_comma S 1 (le_refl 1) (by omega)
    have hpre0 : pre.count ',' = 0 := by omega
    rw [hS]
    have := SMART_ASSERT.text_first pre post N (by omega) hpre0
    simp only [Nat.cast_zero] at this ⊢
    rw [this]
    simp [reference_text, splitOn_comma_first pre post hpre0]
  by_cases hil : i + 1 = N
  · obtain ⟨pre, post, hS, hpre⟩ := exists_split_at_comma S i (by omega) (by omega)
    have hpost : post.count ',' = 0 := by
      rw [hS, List.count_append, List.count_cons_self] at hc
      omega
    have hdrop := drop_splitOn_comma post pre i hpre
    rw [splitOn_comma_single post hpost] at hdrop
    rw [hS, SMART_ASSERT.text_last pre post N i (by omega) (by omega) (by omega) (by omega)]
    simp only [reference_text, getD_of_drop _ _ _ _ hdrop, if_neg hi0]
  · obtain ⟨pre, mid, post, hS, hpre, hmid⟩ :=
      exists_split_at_two_commas S i (by omega) (by omega)
    have hdrop := drop_splitOn_comma (mid ++ ',' :: post) pre i hpre
    rw [splitOn_comma_first mid post hmid] at hdrop
    rw [hS, SMART_ASSERT.text_interior pre mid post N i (by omega) (by omega) (by omega)
      (by omega) hmid]
    simp only [reference_text, getD_of_drop _ _ _ _ hdrop, if_neg hi0]

/-- Witness of C15 on the source text `a ,  b c , d`, index 1 of 3. -/
theorem SMART_ASSERT_text_refines_split_witness :
    SMART_ASSERT.text "a ,  b c , d".toList (3 : Nat) (1 : Nat)
      = some (reference_text "a ,  b c , d".toList 1) :=
  (SMART_ASSERT_text_refines_split "a ,  b c , d".toList 3 1 (by decide) (by decide)
    (by decide)).1


/-! ## Bounds of the interior case (C16) -/

/-- C16: for `N ≥ 3` conditions, an interior index `0 < i < N - 1` and a
source text `S` with at least `i + 1` commas, the pointer after the `i`-th
comma is inside `S`, `condition_string_size` is not negative, and the range
of that size that starts after the leading spaces lies inside `S` and ends
at the index of the `(i+1)`-th comma: the run of leading spaces stops at the
next comma at the latest. -/
theorem SMART_ASSERT_interior_bounds (S : List Char) (N i : Nat) (_hN : 3 ≤ N) (h0 : 0 < i)
    (_hi : i + 1 < N) (hc : i + 1 ≤ S.count ',') :
    ∃ (q : Nat) (p : List Char),
      ptr_add S (_get_nth_comma_position S i + 1) = some p ∧
      0 ≤ _get_leading_spaces p ∧
      0 ≤ _get_nth_comma_position S ((i : Int) + 1) - _get_nth_comma_position S i - 1
            - _get_leading_spaces p ∧
      0 ≤ _get_nth_comma_position S i + 1 + _get_leading_spaces p ∧
      _get_nth_comma_position S i + 1 + _get_leading_spaces p ≤ (q : Int) ∧
      (_get_nth_comma_position S i + 1 + _get_leading_spaces p)
          + (_get_nth_comma_position S ((i : Int) + 1) - _get_nth_comma_position S i - 1
              - _get_leading_spaces p) = (q : Int) ∧
      q < S.length ∧ S[q]? = some ',' ∧ (S.take q).count ',' = i := by
  obtain ⟨pre, mid, post, hS, hpre, hmid⟩ := exists_split_at_two_commas S i h0 hc
  have hpos : _get_nth_comma_position S i = (pre.length : Int) := by
    rw [hS]
    exact _get_nth_comma_position_split pre (mid ++ ',' :: post) i (by omega)
  have hsplit : S = (pre ++ ',' :: mid) ++ ',' :: post := by
    rw [hS, List.append_assoc, List.cons_append]
  have hpos2 : _get_nth_comma_position S ((i : Int) + 1)
      = ((pre ++ ',' :: mid).length : Int) := by
    rw [hsplit]
    exact _get_nth_comma_position_split (pre ++ ',' :: mid) post ((i : Int) + 1)
      (by simp [hmid]; omega)
  have hptr : ptr_add S (_get_nth_comma_position S i + 1) = some (mid ++ ',' :: post) := by
    rw [hpos, hS]
    exact (ptr_add_after_comma pre (mid ++ ',' :: post)).1
  have hsp : _get_leading_spaces (mid ++ ',' :: post)
      = ((mid.takeWhile (fun c => decide (c = ' '))).length : Int) := by
    rw [_get_leading_spaces_eq, takeWhile_append_stop _ _ _ (by decide)]
  have hle := (List.takeWhile_prefix (fun c => decide (c = ' ')) (l := mid)).length_le
  have hlen : (pre ++ ',' :: mid).length = pre.length + 1 + mid.length := by
    rw [List.length_append, List.length_cons]
    omega
  refine ⟨(pre ++ ',' :: mid).length, mid ++ ',' :: post, hptr, ?_, ?_, ?_, ?_, ?_, ?_, ?_, ?_⟩
  · rw [hsp]; omega
  · rw [hpos, hpos2, hsp, hlen]; push_cast; omega
  · rw [hpos, hsp]; omega
  · rw [hpos, hsp, hlen]; push_cast; omega
  · rw [hpos, hpos2, hsp]; omega
  · rw [hsplit]; simp
  · rw [hsplit]
    exact getElem?_split (pre ++ ',' :: mid) post ','
  · rw [hsplit, List.take_left, List.count_append, List.count_cons_self, hmid]
    omega

/-- Witness of C16 on the source text `a,   ,c`, whose middle condition is
made of spaces only. -/
theorem SMART_ASSERT_interior_bounds_witness :
    ∃ (q : Nat) (p : List Char),
      ptr_add "a,   ,c".toList (_get_nth_comma_position "a,   ,c".toList (1 : Nat) + 1)
        = some p ∧
      0 ≤ _get_leading_spaces p ∧
      0 ≤ _get_nth_comma_position "a,   ,c".toList (((1 : Nat) : Int) + 1)
            - _get_nth_comma_position "a,   ,c".toList (1 : Nat) - 1 - _get_leading_spaces p ∧
      0 ≤ _get_nth_comma_position "a,   ,c".toList (1 : Nat) + 1 + _get_leading_spaces p ∧
      _get_nth_comma_position "a,   ,c".toList (1 : Nat) + 1 + _get_leading_spaces p
        ≤ (q : Int) ∧
      (_get_nth_comma_position "a,   ,c".toList (1 : Nat) + 1 + _get_leading_spaces p)
          + (_get_nth_comma_position "a,   ,c".toList (((1 : Nat) : Int) + 1)
              - _get_nth_comma_position "a,   ,c".toList (1 : Nat) - 1
              - _get_leading_spaces p) = (q : Int) ∧
      q < "a,   ,c".toList.length ∧ "a,   ,c".toList[q]? = some ',' ∧
      ("a,   ,c".toList.take q).count ',' = 1 :=
  SMART_ASSERT_interior_bounds "a,   ,c".toList 3 1 (by decide) (by decide) (by decide)
    (by decide)

end SmartAssert
